import Mathlib

/-!
Shallow embedding of the base60-codec library (`src/index.ts`) and proofs of
its specified properties.

The TypeScript source is modelled as follows:
* JavaScript `bigint` values become `Int` (`Nat` once known non-negative);
  `Uint8Array` becomes `List Nat` with entries `< 256`.
* Functions that `throw` return `Except Err α` with an `Err` constructor per
  distinct error site of the source.
* The `while (v > 0)` repeated-division loops are modelled with an explicit
  fuel argument (`fuel = v` steps always suffice since `v / base < v`),
  mirroring the fuel pattern of `Nat.toDigits` in core.
* `parseInt(s, radix)` is modelled faithfully (leading-whitespace trim, sign,
  `0x` prefix for radix 16, longest digit prefix, `NaN` as `none`), and the
  `Uint8Array` element coercion (`NaN ↦ 0`, modulo `2^8`) as `toUint8`.
-/

namespace Base60

/-- The codec's 60-symbol alphabet (source line 30). -/
def alphabetString : String :=
  "0123456789ABCDEFGHIJKLMNPQRSTUVWXYZabcdefghijkmnopqrstuvwxyz"

/-- The alphabet as a character list. -/
def alphabet : List Char := alphabetString.data

/-- `base = BigInt(alphabet.length)` (source line 37). -/
def base : Nat := alphabet.length

/-- The Crockford base-32 alphabet used for ULID text (source line 34). -/
def crockfordString : String := "0123456789ABCDEFGHJKMNPQRSTVWXYZ"

/-- The Crockford alphabet as a character list. -/
def crockford : List Char := crockfordString.data

/-- First index of a character in a list, modelling the `charToValue`
`Map` lookups built by position (all relevant lists have distinct entries). -/
def indexIn (l : List Char) (c : Char) : Option Nat :=
  match l with
  | [] => none
  | x :: xs => if x = c then some 0 else (indexIn xs c).map (· + 1)

/-- `charToValue.get(ch)` (source lines 38-41). -/
def charToValue (c : Char) : Option Nat := indexIn alphabet c

/-- One constructor per distinct `throw` site of the source. -/
inductive Err where
  /-- "Encoded value length (n) exceeds fixed length m" (leftPad). -/
  | overflow (len fixed : Nat)
  /-- "invalid character" in `decodeToBigInt`. -/
  | invalidCharacter (c : Char)
  /-- "negative bigint is not supported" in `bigIntToBytes`. -/
  | negativeValue
  /-- "decoded bytes exceed fixed length" in `bigIntToBytes`. -/
  | lengthExceeded
  /-- "Expected n chars" in `decodeInt64` / `decodeULID`. -/
  | lengthMismatch (expected : Nat)
  /-- "invalid UUID" / "Invalid ULID format". -/
  | formatError (msg : String)
  /-- "Invalid ULID char" (unreachable after the ULID regex check). -/
  | invalidULIDChar (c : Char)
  deriving DecidableEq, Repr

instance {ε α : Type} [DecidableEq ε] [DecidableEq α] :
    DecidableEq (Except ε α) := fun x y =>
  match x, y with
  | .ok a, .ok b =>
    if h : a = b then .isTrue (by rw [h])
    else .isFalse (by intro hc; cases hc; exact h rfl)
  | .error a, .error b =>
    if h : a = b then .isTrue (by rw [h])
    else .isFalse (by intro hc; cases hc; exact h rfl)
  | .ok _, .error _ => .isFalse (by intro hc; cases hc)
  | .error _, .ok _ => .isFalse (by intro hc; cases hc)

/-- `leftPad` (source lines 43-50): reject when too long, otherwise
`padStart(length, alphabet[0])`. -/
def leftPad (text : String) (len : Nat) : Except Err String :=
  if len < text.length then
    .error (.overflow text.length len)
  else
    .ok (String.mk (List.replicate (len - text.length) (alphabet.getD 0 ' ') ++ text.data))

/-- The repeated-division loop `while (v > 0) { mod = v % b; v = v / b;
out = digit(mod) + out }`, with fuel (`fuel = v` suffices). -/
def repeatedDiv (b : Nat) (digit : Nat → Char) : Nat → Nat → List Char → List Char
  | 0, _, out => out
  | fuel + 1, v, out =>
    if v = 0 then out else repeatedDiv b digit fuel (v / b) (digit (v % b) :: out)

/-- Digit-to-symbol indexing `alphabet[d]`. -/
def alphaChar (d : Nat) : Char := alphabet.getD d ' '

/-- `encodeBigInt` (source lines 94-111).  A negative `value` skips the loop
entirely and produces the empty string (the source has no negative check). -/
def encodeBigInt (value : Int) (padLength : Option Nat) : Except Err String :=
  if value = 0 then
    match padLength with
    | some l => leftPad (String.mk [alphabet.getD 0 ' ']) l
    | none => .ok (String.mk [alphabet.getD 0 ' '])
  else
    let out := String.mk (repeatedDiv base alphaChar value.toNat value.toNat [])
    match padLength with
    | some l => leftPad out l
    | none => .ok out

/-- The per-character Horner loop of `decodeToBigInt`. -/
def decodeLoop : List Char → Nat → Except Err Nat
  | [], v => .ok v
  | c :: cs, v =>
    match charToValue c with
    | none => .error (.invalidCharacter c)
    | some d => decodeLoop cs (v * base + d)

/-- `decodeToBigInt` (source lines 116-126). -/
def decodeToBigInt (text : String) : Except Err Nat :=
  decodeLoop text.data 0

/-- `bytesToBigInt` (source lines 55-61): big-endian fold
`result = (result << 8) + b`. -/
def bytesToBigInt (bytes : List Nat) : Nat :=
  bytes.foldl (fun r b => r * 256 + b) 0

/-- `isValidBase60` (source lines 257-262). -/
def isValidBase60 (text : String) : Bool :=
  text.data.all (fun c => alphabet.contains c)

/-- `compareAsBigInt` (source lines 248-255). -/
def compareAsBigInt (a b : String) : Except Err Int := do
  let ai ← decodeToBigInt a
  let bi ← decodeToBigInt b
  return (if ai < bi then -1 else if bi < ai then 1 else 0)

/-- The 36 digit characters used by JavaScript number formatting and parsing. -/
def base36String : String := "0123456789abcdefghijklmnopqrstuvwxyz"

/-- The 36 digit characters as a list. -/
def base36chars : List Char := base36String.data

/-- Digit-value-to-character map of `Number.prototype.toString(radix)`. -/
def digitChar36 (d : Nat) : Char := base36chars.getD d '0'

/-- ASCII lower-casing (the only case mapping relevant to hex digits). -/
def toLowerAscii (c : Char) : Char :=
  if 'A' ≤ c ∧ c ≤ 'Z' then Char.ofNat (c.toNat + 32) else c

/-- ASCII upper-casing, modelling `toUpperCase` on the ASCII strings the
codec manipulates. -/
def upperAscii (c : Char) : Char :=
  if 'a' ≤ c ∧ c ≤ 'z' then Char.ofNat (c.toNat - 32) else c

/-- `v.toString(radix)` for a non-negative value: minimal most-significant-first
digit string, `"0"` for zero. -/
def natToStringR (r : Nat) (v : Nat) : List Char :=
  if v = 0 then ['0'] else repeatedDiv r digitChar36 v v []

/-- The ECMAScript WhiteSpace and LineTerminator characters trimmed by
`parseInt`. -/
def wsChars : List Char :=
  [Char.ofNat 0x9, Char.ofNat 0xa, Char.ofNat 0xb, Char.ofNat 0xc, Char.ofNat 0xd,
   Char.ofNat 0x20, Char.ofNat 0xa0, Char.ofNat 0x1680,
   Char.ofNat 0x2000, Char.ofNat 0x2001, Char.ofNat 0x2002, Char.ofNat 0x2003,
   Char.ofNat 0x2004, Char.ofNat 0x2005, Char.ofNat 0x2006, Char.ofNat 0x2007,
   Char.ofNat 0x2008, Char.ofNat 0x2009, Char.ofNat 0x200a,
   Char.ofNat 0x2028, Char.ofNat 0x2029, Char.ofNat 0x202f, Char.ofNat 0x205f,
   Char.ofNat 0x3000, Char.ofNat 0xfeff]

/-- Whitespace test for `parseInt` trimming. -/
def isJSWhitespace (c : Char) : Bool := wsChars.contains c

/-- The digit value a character denotes in radix `r` for `parseInt`
(`0-9a-zA-Z`, value below the radix), `none` otherwise. -/
def digitValR (r : Nat) (c : Char) : Option Nat :=
  match indexIn base36chars (toLowerAscii c) with
  | some d => if d < r then some d else none
  | none => none

/-- Strip a leading `0x`/`0X` when the radix is 16 (`parseInt` step 10). -/
def strip0x (r : Nat) (l : List Char) : List Char :=
  if r = 16 then
    match l with
    | c0 :: c1 :: rest => if c0 = '0' ∧ (c1 = 'x' ∨ c1 = 'X') then rest else l
    | _ => l
  else l

/-- Longest radix-`r` digit prefix, evaluated positionally; `none` when the
prefix is empty (`parseInt` yields `NaN`). -/
def takeDigitsVal (r : Nat) (l : List Char) : Option Nat :=
  let ds := l.takeWhile (fun c => (digitValR r c).isSome)
  if ds.isEmpty then none
  else some (ds.foldl (fun v c => v * r + (digitValR r c).getD 0) 0)

/-- Continuation of `parseInt` after the optional sign has been consumed. -/
def parseAfterSign (r : Nat) (l : List Char) (neg : Bool) : Option Int :=
  (takeDigitsVal r (strip0x r l)).map (fun n => if neg then -(n : Int) else (n : Int))

/-- `parseInt(s, r)`: trim leading whitespace, optional sign, optional `0x`
(radix 16), longest digit prefix; `none` models `NaN`. -/
def parseIntJS (r : Nat) (s : List Char) : Option Int :=
  match s.dropWhile isJSWhitespace with
  | [] => none
  | c :: rest =>
    if c = '-' then parseAfterSign r rest true
    else if c = '+' then parseAfterSign r rest false
    else parseAfterSign r (c :: rest) false

/-- Assignment of a JavaScript number to a `Uint8Array` element:
`NaN` becomes `0`, otherwise the integer modulo `2^8`. -/
def toUint8 (v : Option Int) : Nat :=
  match v with
  | none => 0
  | some i => (i % 256).toNat

/-- The `bytes[i] = parseInt(hex.substr(i * 2, 2), 16)` loops of
`bigIntToBytes` and `encodeUUID`, consuming an even-length string pairwise. -/
def pairBytes : List Char → List Nat
  | c1 :: c2 :: rest => toUint8 (parseIntJS 16 [c1, c2]) :: pairBytes rest
  | _ => []

/-- `bigIntToBytes` (source lines 66-89): hex-string detour
(`value.toString(16)`, zero-pad to even length, parse byte pairs), then
optional left-padding with zero bytes to `fixedLength`. -/
def bigIntToBytes (value : Int) (fixedLength : Option Nat) : Except Err (List Nat) :=
  if value < 0 then .error .negativeValue
  else
    let hex0 := natToStringR 16 value.toNat
    let hex := if hex0.length % 2 = 1 then '0' :: hex0 else hex0
    let bytes := pairBytes hex
    match fixedLength with
    | none => .ok bytes
    | some fl =>
      if fl < bytes.length then .error .lengthExceeded
      else .ok (List.replicate (fl - bytes.length) 0 ++ bytes)

/-- `encodeInt64` (source lines 145-150): encode then pad to 11 characters. -/
def encodeInt64 (value : Int) : Except Err String := do
  let s ← encodeBigInt value none
  leftPad s 11

/-- `decodeInt64` (source lines 152-157): require exactly 11 characters. -/
def decodeInt64 (text : String) : Except Err Nat :=
  if text.length ≠ 11 then .error (.lengthMismatch 11)
  else decodeToBigInt text

/-- The hyphen-stripping `uuid.replace` with a global hyphen pattern:
drops every hyphen, wherever it occurs. -/
def stripHyphens (s : String) : String :=
  String.mk (s.data.filter (fun c => c ≠ '-'))

/-- `encodeUUID` (source lines 159-170): strip hyphens, require 32 remaining
characters, parse 16 byte pairs (lenient `parseInt`), encode, pad to 22. -/
def encodeUUID (uuid : String) : Except Err String :=
  let hex := stripHyphens uuid
  if hex.length ≠ 32 then .error (.formatError "invalid UUID")
  else do
    let raw ← encodeBigInt ((bytesToBigInt (pairBytes hex.data) : Nat) : Int) none
    leftPad raw 22

/-- `b.toString(16).padStart(2, "0")` in `decodeUUID`. -/
def byteToHex2 (b : Nat) : List Char :=
  let h := natToStringR 16 b
  List.replicate (2 - h.length) '0' ++ h

/-- `decodeUUID` (source lines 172-188): decode, re-expand to exactly 16
bytes, re-hex, re-insert hyphens in 8-4-4-4-12 grouping.  The source has no
input-length check. -/
def decodeUUID (text : String) : Except Err String := do
  let value ← decodeToBigInt text
  let bytes ← bigIntToBytes ((value : Nat) : Int) (some 16)
  let hex := (bytes.map byteToHex2).flatten
  return String.mk (hex.take 8 ++ '-' :: ((hex.drop 8).take 4) ++ '-' ::
    ((hex.drop 12).take 4) ++ '-' :: ((hex.drop 16).take 4) ++ '-' :: hex.drop 20)

/-- The accumulation loop of `encodeULID`:
`value = (value << 5) + map32.get(ch)` with a per-character failure. -/
def ulidAccum : List Char → Nat → Except Err Nat
  | [], v => .ok v
  | c :: cs, v =>
    match indexIn crockford c with
    | none => .error (.invalidULIDChar c)
    | some d => ulidAccum cs (v * 32 + d)

/-- `encodeULID` (source lines 190-214): validate against the
case-insensitive Crockford character class (26 chars), accumulate the 26
five-bit groups of the upper-cased text, encode, pad to 22. -/
def encodeULID (ulid : String) : Except Err String :=
  if ulid.length = 26 ∧ ulid.data.all (fun c => crockford.contains (upperAscii c)) then do
    let value ← ulidAccum (ulid.data.map upperAscii) 0
    let raw ← encodeBigInt ((value : Nat) : Int) none
    leftPad raw 22
  else .error (.formatError "Invalid ULID format")

/-- `b.toString(2).padStart(8, "0")` in `decodeULID`. -/
def byteToBits (b : Nat) : List Char :=
  let s := natToStringR 2 b
  List.replicate (8 - s.length) '0' ++ s

/-- JavaScript indexing `l[i]` with an out-of-range or `NaN` index producing
`undefined` (appended to a string as `"undefined"`). -/
def jsIndexChars (l : List Char) (v : Option Int) : List Char :=
  match v with
  | none => "undefined".data
  | some i => if 0 ≤ i ∧ i < l.length then [l.getD i.toNat ' '] else "undefined".data

/-- `decodeULID` (source lines 216-246): require 22 characters, decode,
re-expand to 16 bytes, serialize to 128 bits, left-pad to 130 bits, and map
each of the 26 five-bit chunks back to its Crockford symbol. -/
def decodeULID (text : String) : Except Err String :=
  if text.length ≠ 22 then .error (.lengthMismatch 22)
  else do
    let value ← decodeToBigInt text
    let bytes ← bigIntToBytes ((value : Nat) : Int) (some 16)
    let bits := (bytes.map byteToBits).flatten
    let padded := List.replicate (130 - bits.length) '0' ++ bits
    return String.mk (((List.range 26).map
      (fun i => jsIndexChars crockford (parseIntJS 2 ((padded.drop (5 * i)).take 5)))).flatten)

/-! ### Generic positional-numeral machinery -/

/-- Minimal most-significant-first base-`b` rendering of `N` through the
digit map `f` (a single zero digit for `N = 0`). -/
def minChars {α : Type} (b : Nat) (f : Nat → α) (N : Nat) : List α :=
  if N = 0 then [f 0] else ((Nat.digits b N).map f).reverse

/-- Fixed-width (`k`-digit) big-endian base-`b` rendering of `N`, defined by
peeling the least-significant digit. -/
def fixedBE {α : Type} (b : Nat) (f : Nat → α) : Nat → Nat → List α
  | 0, _ => []
  | k + 1, N => fixedBE b f k (N / b) ++ [f (N % b)]

theorem fixedBE_length {α : Type} (b : Nat) (f : Nat → α) (k N : Nat) :
    (fixedBE b f k N).length = k := by
  induction k generalizing N with
  | zero => rfl
  | succ k ih => simp [fixedBE, ih]

theorem fixedBE_zero {α : Type} (b : Nat) (f : Nat → α) (k : Nat) :
    fixedBE b f k 0 = List.replicate k (f 0) := by
  induction k with
  | zero => rfl
  | succ k ih => simp [fixedBE, ih, List.replicate_succ']

theorem minChars_ne_nil {α : Type} (b : Nat) (f : Nat → α) (N : Nat) :
    minChars b f N ≠ [] := by
  unfold minChars
  split
  · simp
  · simp [Nat.digits_ne_nil_iff_ne_zero, *]

theorem minChars_length_zero {α : Type} (b : Nat) (f : Nat → α) :
    (minChars b f 0).length = 1 := rfl

theorem minChars_length_pos {α : Type} (b : Nat) (f : Nat → α) (N : Nat) (hN : N ≠ 0) :
    (minChars b f N).length = (Nat.digits b N).length := by
  simp [minChars, hN]

theorem repeatedDiv_spec (b : Nat) (hb : 1 < b) (f : Nat → Char) :
    ∀ fuel v out, v ≤ fuel →
      repeatedDiv b f fuel v out = ((Nat.digits b v).map f).reverse ++ out := by
  intro fuel
  induction fuel with
  | zero =>
    intro v out hv
    have : v = 0 := Nat.le_zero.mp hv
    simp [this, repeatedDiv]
  | succ fuel ih =>
    intro v out hv
    by_cases h0 : v = 0
    · simp [h0, repeatedDiv]
    · have hpos : 0 < v := Nat.pos_of_ne_zero h0
      have hdiv : v / b < v := Nat.div_lt_self hpos hb
      rw [repeatedDiv, if_neg h0, ih (v / b) _ (by omega),
        Nat.digits_def' hb hpos]
      simp

theorem natToStringR_eq_minChars (r : Nat) (hr : 1 < r) (v : Nat) :
    natToStringR r v = minChars r digitChar36 v := by
  by_cases h0 : v = 0
  · simp [h0, natToStringR, minChars]
    rfl
  · simp [natToStringR, minChars, h0, repeatedDiv_spec r hr digitChar36 v v [] le_rfl]

/-- Fixed-width rendering is minimal rendering left-padded with zero digits. -/
theorem pad_minChars_eq_fixedBE {α : Type} (b : Nat) (f : Nat → α) (k N : Nat)
    (hb : 1 < b) (hN : N < b ^ k) (hL : (minChars b f N).length ≤ k) :
    List.replicate (k - (minChars b f N).length) (f 0) ++ minChars b f N
      = fixedBE b f k N := by
  induction k generalizing N with
  | zero =>
    have := minChars_ne_nil b f N
    have : (minChars b f N).length ≠ 0 := by simpa [List.length_eq_zero]
    omega
  | succ k ih =>
    by_cases h0 : N = 0
    · subst h0
      rw [fixedBE_zero]
      show List.replicate (k + 1 - 1) (f 0) ++ [f 0] = _
      rw [← List.replicate_succ']
      congr 1
    · have hpos : 0 < N := Nat.pos_of_ne_zero h0
      have hdig : Nat.digits b N = N % b :: Nat.digits b (N / b) := Nat.digits_def' hb hpos
      have hmin : minChars b f N = ((Nat.digits b (N / b)).map f).reverse ++ [f (N % b)] := by
        simp [minChars, h0, hdig]
      by_cases hq : N / b = 0
      · have hone : minChars b f N = [f (N % b)] := by simp [hmin, hq]
        rw [hone, fixedBE, hq, fixedBE_zero]
        simp
      · have hq' : N / b < b ^ k := by
          rw [Nat.div_lt_iff_lt_mul (by omega : 0 < b)]
          calc N < b ^ (k + 1) := hN
          _ = b ^ k * b := by rw [pow_succ]
        have hminq : minChars b f (N / b) = ((Nat.digits b (N / b)).map f).reverse := by
          simp [minChars, hq]
        have hlen : (minChars b f N).length = (minChars b f (N / b)).length + 1 := by
          rw [hmin, hminq]; simp
        have hLq : (minChars b f (N / b)).length ≤ k := by omega
        have hrec := ih (N / b) hq' hLq
        have hcnt : k + 1 - (minChars b f N).length = k - (minChars b f (N / b)).length := by
          omega
        rw [fixedBE, ← hrec, hcnt, hmin, ← hminq, ← List.append_assoc]

theorem digits_len_le_iff {b : Nat} (hb : 1 < b) (N k : Nat) :
    (Nat.digits b N).length ≤ k ↔ N < b ^ k := by
  constructor
  · intro h
    calc N < b ^ (Nat.digits b N).length := Nat.lt_base_pow_length_digits hb
    _ ≤ b ^ k := Nat.pow_le_pow_right (by omega) h
  · intro h
    by_cases h0 : N = 0
    · simp [h0]
    · by_contra hk
      push_neg at hk
      have h1 : b ^ (Nat.digits b N).length ≤ b * N :=
        Nat.base_pow_length_digits_le b N hb h0
      have h2 : b ^ (k + 1) ≤ b ^ (Nat.digits b N).length :=
        Nat.pow_le_pow_right (by omega) (by omega)
      rw [pow_succ] at h2
      have h3 : b * b ^ k ≤ b * N := by
        calc b * b ^ k = b ^ k * b := Nat.mul_comm _ _
        _ ≤ b ^ (Nat.digits b N).length := h2
        _ ≤ b * N := h1
      have := Nat.le_of_mul_le_mul_left h3 (by omega)
      omega

theorem fixedBE_compose {α : Type} (b : Nat) (f : Nat → α) (j k N : Nat) :
    fixedBE b f (j + k) N = fixedBE b f j (N / b ^ k) ++ fixedBE b f k (N % b ^ k) := by
  induction k generalizing N with
  | zero => simp [fixedBE, Nat.mod_one]
  | succ k ih =>
    have e1 : N / b / b ^ k = N / b ^ (k + 1) := by
      rw [Nat.div_div_eq_div_mul, pow_succ, Nat.mul_comm]
    have e2 : N % b ^ (k + 1) / b = N / b % b ^ k := by
      rw [pow_succ, Nat.mul_comm, Nat.mod_mul_right_div_self]
    have e3 : N % b ^ (k + 1) % b = N % b := by
      exact Nat.mod_mod_of_dvd N (dvd_pow_self b (Nat.succ_ne_zero k))
    show fixedBE b f (j + k + 1) N = _
    rw [fixedBE, ih, fixedBE, e1, e2, e3, List.append_assoc]

theorem foldl_horner_lt (b : Nat) (hb : 0 < b) (D : List Nat)
    (hD : ∀ d ∈ D, d < b) :
    D.foldl (fun v d => v * b + d) 0 < b ^ D.length := by
  induction D using List.reverseRecOn with
  | nil => simp [hb]
  | append_singleton D d ih =>
    have hd : d < b := hD d (by simp)
    have hV : D.foldl (fun v d => v * b + d) 0 < b ^ D.length :=
      ih (fun x hx => hD x (by simp [hx]))
    rw [List.foldl_append]
    simp only [List.foldl_cons, List.foldl_nil, List.length_append,
      List.length_singleton]
    have hpow : 0 < b ^ D.length := Nat.pos_pow_of_pos _ hb
    have h4 : D.foldl (fun v d => v * b + d) 0 * b ≤ (b ^ D.length - 1) * b :=
      Nat.mul_le_mul_right b (by omega)
    have h5 : (b ^ D.length - 1) * b = b ^ D.length * b - b := by
      rw [Nat.sub_mul, one_mul]
    have h6 : b ≤ b ^ D.length * b := Nat.le_mul_of_pos_left b hpow
    rw [pow_succ]
    omega

theorem fixedBE_foldl {α : Type} (b : Nat) (f : Nat → α) (D : List Nat)
    (hD : ∀ d ∈ D, d < b) :
    fixedBE b f D.length (D.foldl (fun v d => v * b + d) 0) = D.map f := by
  induction D using List.reverseRecOn with
  | nil => rfl
  | append_singleton D d ih =>
    have hd : d < b := hD d (by simp)
    have hb : 0 < b := by omega
    rw [List.foldl_append]
    simp only [List.foldl_cons, List.foldl_nil, List.length_append,
      List.length_singleton]
    rw [fixedBE]
    have ediv : (D.foldl (fun v d => v * b + d) 0 * b + d) / b
        = D.foldl (fun v d => v * b + d) 0 := by
      rw [Nat.mul_comm _ b, Nat.mul_add_div hb, Nat.div_eq_of_lt hd]
      omega
    have emod : (D.foldl (fun v d => v * b + d) 0 * b + d) % b = d := by
      rw [Nat.mul_comm _ b, Nat.mul_add_mod]
      exact Nat.mod_eq_of_lt hd
    rw [ediv, emod, ih (fun x hx => hD x (by simp [hx]))]
    simp

theorem indexIn_getD (l : List Char) (c : Char) (i : Nat) (x : Char)
    (h : indexIn l c = some i) : l.getD i x = c := by
  induction l generalizing i with
  | nil => simp [indexIn] at h
  | cons a xs ih =>
    rw [indexIn] at h
    by_cases hac : a = c
    · rw [if_pos hac] at h
      cases h
      simpa using hac
    · rw [if_neg hac] at h
      cases hj : indexIn xs c with
      | none => rw [hj] at h; simp at h
      | some j =>
        rw [hj] at h
        simp at h
        subst h
        simpa using ih j hj

theorem indexIn_lt_length (l : List Char) (c : Char) (i : Nat)
    (h : indexIn l c = some i) : i < l.length := by
  induction l generalizing i with
  | nil => simp [indexIn] at h
  | cons a xs ih =>
    rw [indexIn] at h
    by_cases hac : a = c
    · rw [if_pos hac] at h
      cases h
      simp
    · rw [if_neg hac] at h
      cases hj : indexIn xs c with
      | none => rw [hj] at h; simp at h
      | some j =>
        rw [hj] at h
        simp at h
        subst h
        have := ih j hj
        simp
        omega

theorem indexIn_isSome_iff_contains (l : List Char) (c : Char) :
    (indexIn l c).isSome = l.contains c := by
  induction l with
  | nil => rfl
  | cons a xs ih =>
    rw [indexIn, List.contains_cons]
    by_cases hac : a = c
    · simp [hac]
    · have hbeq : (c == a) = false := by
        simp only [beq_eq_false_iff_ne, ne_eq]
        exact fun h => hac h.symm
      rw [if_neg hac, hbeq, Bool.false_or, ← ih]
      cases h : indexIn xs c <;> simp [h]

/-! ### Base-60 encode/decode correctness -/

theorem base_eq : base = 60 := rfl

theorem charToValue_alphaChar_fin :
    ∀ d : Fin 60, charToValue (alphaChar d.val) = some d.val := by decide

theorem charToValue_alphaChar (d : Nat) (hd : d < 60) :
    charToValue (alphaChar d) = some d :=
  charToValue_alphaChar_fin ⟨d, hd⟩

theorem decodeLoop_append (l1 l2 : List Char) (a m : Nat)
    (h : decodeLoop l1 a = .ok m) :
    decodeLoop (l1 ++ l2) a = decodeLoop l2 m := by
  induction l1 generalizing a with
  | nil =>
    simp only [decodeLoop] at h
    cases h
    simp
  | cons c cs ih =>
    rw [List.cons_append]
    cases hc : charToValue c with
    | none =>
      simp only [decodeLoop, hc] at h
      exact absurd h (by simp)
    | some d =>
      simp only [decodeLoop, hc] at h ⊢
      exact ih _ h

theorem decodeLoop_fixedBE (k N a : Nat) (hN : N < 60 ^ k) :
    decodeLoop (fixedBE 60 alphaChar k N) a = .ok (a * 60 ^ k + N) := by
  induction k generalizing N a with
  | zero =>
    have : N = 0 := by simpa using hN
    simp [this, fixedBE, decodeLoop]
  | succ k ih =>
    have h1 : N / 60 < 60 ^ k := by
      rw [Nat.div_lt_iff_lt_mul (by omega : (0:Nat) < 60)]
      calc N < 60 ^ (k + 1) := hN
      _ = 60 ^ k * 60 := by rw [pow_succ]
    rw [fixedBE, decodeLoop_append _ _ _ _ (ih (N / 60) a h1)]
    simp only [decodeLoop, charToValue_alphaChar (N % 60) (by omega)]
    congr 1
    rw [base_eq, pow_succ]
    have hdm : 60 * (N / 60) + N % 60 = N := Nat.div_add_mod N 60
    calc (a * 60 ^ k + N / 60) * 60 + N % 60
        = a * (60 ^ k * 60) + (60 * (N / 60) + N % 60) := by ring
    _ = a * (60 ^ k * 60) + N := by rw [hdm]

/-- `encodeBigInt` without a pad length returns the minimal rendering. -/
theorem encodeBigInt_none (N : Nat) :
    encodeBigInt (N : Int) none = .ok (String.mk (minChars 60 alphaChar N)) := by
  by_cases h0 : N = 0
  · subst h0
    rfl
  · have hN : (N : Int) ≠ 0 := by
      simpa using h0
    rw [encodeBigInt, if_neg hN]
    show Except.ok (String.mk (repeatedDiv base alphaChar N N [])) = _
    rw [base_eq, repeatedDiv_spec 60 (by omega) alphaChar N N [] le_rfl]
    simp [minChars, h0]

/-- `encodeBigInt` with a pad length `k` large enough returns the fixed-width
rendering. -/
theorem encodeBigInt_pad (N k : Nat) (hN : N < 60 ^ k)
    (hL : (minChars 60 alphaChar N).length ≤ k) :
    encodeBigInt (N : Int) (some k) = .ok (String.mk (fixedBE 60 alphaChar k N)) := by
  have hpad := pad_minChars_eq_fixedBE 60 alphaChar k N (by omega) hN hL
  by_cases h0 : N = 0
  · subst h0
    rw [minChars_length_zero] at hL
    show leftPad (String.mk [alphabet.getD 0 ' ']) k = _
    rw [leftPad]
    have hlen1 : (String.mk [alphabet.getD 0 ' ']).length = 1 := rfl
    rw [if_neg (by rw [hlen1]; omega)]
    rw [← hpad]
    rfl
  · have hN0 : (N : Int) ≠ 0 := by simpa using h0
    have hm : minChars 60 alphaChar N = ((Nat.digits 60 N).map alphaChar).reverse := by
      simp [minChars, h0]
    rw [encodeBigInt, if_neg hN0]
    show leftPad (String.mk (repeatedDiv base alphaChar N N [])) k = _
    rw [base_eq, repeatedDiv_spec 60 (by omega) alphaChar N N [] le_rfl,
      List.append_nil]
    rw [leftPad]
    have hlen : (String.mk (((Nat.digits 60 N).map alphaChar).reverse)).length
        = (minChars 60 alphaChar N).length := by
      simp [minChars, h0]
    rw [if_neg (by rw [hlen]; omega)]
    rw [← hpad, hm]
    rfl

/-- Decoding the minimal rendering recovers the value. -/
theorem decode_minChars (N : Nat) :
    decodeToBigInt (String.mk (minChars 60 alphaChar N)) = .ok N := by
  have hN : N < 60 ^ (minChars 60 alphaChar N).length := by
    by_cases h0 : N = 0
    · simp [h0, minChars_length_zero]
    · rw [minChars_length_pos 60 alphaChar N h0]
      exact Nat.lt_base_pow_length_digits (by omega)
  have hpad := pad_minChars_eq_fixedBE 60 alphaChar (minChars 60 alphaChar N).length N
    (by omega) hN le_rfl
  rw [Nat.sub_self] at hpad
  simp only [List.replicate_zero, List.nil_append] at hpad
  show decodeLoop (minChars 60 alphaChar N) 0 = _
  rw [hpad, decodeLoop_fixedBE _ _ _ hN]
  simp

/-- Decoding the fixed-width rendering recovers the value. -/
theorem decode_fixedBE (k N : Nat) (hN : N < 60 ^ k) :
    decodeToBigInt (String.mk (fixedBE 60 alphaChar k N)) = .ok N := by
  show decodeLoop (fixedBE 60 alphaChar k N) 0 = _
  rw [decodeLoop_fixedBE _ _ _ hN]
  simp

theorem padchar_eq : alphabet.getD 0 ' ' = '0' := by decide

/-- Behaviour of `leftPad` on both sides of the width check. -/
theorem leftPad_spec (s : String) (w : Nat) :
    (s.length ≤ w →
      leftPad s w = .ok (String.mk (List.replicate (w - s.length) '0' ++ s.data)) ∧
      (String.mk (List.replicate (w - s.length) '0' ++ s.data)).length = w) ∧
    (w < s.length → leftPad s w = .error (.overflow s.length w)) := by
  constructor
  · intro hle
    rw [leftPad, if_neg (by omega), padchar_eq]
    refine ⟨rfl, ?_⟩
    show (List.replicate (w - s.length) '0' ++ s.data).length = w
    rw [List.length_append, List.length_replicate]
    have : s.data.length = s.length := rfl
    omega
  · intro hlt
    rw [leftPad, if_pos hlt]

/-- Both fixed-width encoders reduce to `encodeBigInt` with a pad length. -/
theorem encodeInt64_eq_pad (v : Int) : encodeInt64 v = encodeBigInt v (some 11) := by
  show Except.bind (encodeBigInt v none) (fun s => leftPad s 11) = encodeBigInt v (some 11)
  by_cases hv : v = 0
  · subst hv
    rfl
  · rw [encodeBigInt, if_neg hv, encodeBigInt, if_neg hv]
    rfl

/-- C1: for every non-negative arbitrary-precision integer `v`,
`decodeToBigInt (encodeBigInt v)` returns exactly `v`: the repeated-division
encoding and the Horner decoding are mutually inverse on the non-negative
integers, at any magnitude. -/
theorem decode_encode_bigint (v : Int) (h : 0 ≤ v) :
    ∃ s, encodeBigInt v none = .ok s ∧ decodeToBigInt s = .ok v.toNat := by
  obtain ⟨N, rfl⟩ := Int.eq_ofNat_of_zero_le h
  refine ⟨_, encodeBigInt_none N, ?_⟩
  rw [decode_minChars N]
  simp

set_option maxRecDepth 4000 in
/-- C1 witness: a 200-bit value round-trips exactly. -/
theorem decode_encode_bigint_check :
    (0:Int) ≤ 2 ^ 200 - 1 ∧
      ∃ s, encodeBigInt (2 ^ 200 - 1) none = .ok s ∧
        decodeToBigInt s = .ok ((2:Int) ^ 200 - 1).toNat :=
  ⟨by decide, decode_encode_bigint (2 ^ 200 - 1) (by decide)⟩

/-- C6 (code-bug evidence): a negative value is not rejected — the encoding
loop is skipped and `encodeBigInt (-1)` silently returns the empty string,
while `encodeInt64 (-1)` returns eleven zero-symbols.  No error is raised. -/
theorem encode_negative_no_error :
    encodeBigInt (-1) none = .ok "" ∧ encodeInt64 (-1) = .ok "00000000000" := by
  constructor <;> decide

/-- C7: with a target width `w`, a minimal representation of length at most
`w` is left-padded with the zero-symbol to exactly `w` characters, and a
longer minimal representation makes the call fail with an OverflowError —
padding never truncates. -/
theorem encodeBigInt_pad_spec (v : Int) (w : Nat) (s : String) (_h0 : 0 ≤ v)
    (hs : encodeBigInt v none = .ok s) :
    (s.length ≤ w →
      encodeBigInt v (some w) = .ok (String.mk (List.replicate (w - s.length) '0' ++ s.data)) ∧
      (String.mk (List.replicate (w - s.length) '0' ++ s.data)).length = w) ∧
    (w < s.length → encodeBigInt v (some w) = .error (.overflow s.length w)) := by
  have key : encodeBigInt v (some w) = leftPad s w := by
    by_cases hv : v = 0
    · rw [encodeBigInt, if_pos hv]
      rw [encodeBigInt, if_pos hv] at hs
      cases hs
      rfl
    · rw [encodeBigInt, if_neg hv]
      rw [encodeBigInt, if_neg hv] at hs
      cases hs
      rfl
  rw [key]
  exact leftPad_spec s w

/-- C7 witness: 61 encodes minimally to "11"; padded to width 4 it becomes
"0011" of length 4. -/
theorem encodeBigInt_pad_spec_check :
    (0:Int) ≤ 61 ∧ encodeBigInt 61 none = .ok "11" ∧
      (("11":String).length ≤ 4 ∧
        (encodeBigInt 61 (some 4) =
          .ok (String.mk (List.replicate (4 - ("11":String).length) '0' ++ ("11":String).data)) ∧
        (String.mk (List.replicate (4 - ("11":String).length) '0' ++ ("11":String).data)).length = 4)) :=
  ⟨by decide, by decide,
    by decide,
    (encodeBigInt_pad_spec 61 4 "11" (by decide) (by decide)).1 (by decide)⟩

/-- C10: `encodeInt64` has no 64-bit range check: every non-negative `v`
below `60 ^ 11` is accepted, yields an 11-character string and round-trips
through `decodeInt64`; the call fails (with an OverflowError) only when
`v ≥ 60 ^ 11`. -/
theorem encodeInt64_no_range_check (v : Int) (h0 : 0 ≤ v) :
    (v < 60 ^ 11 →
      ∃ s, encodeInt64 v = .ok s ∧ s.length = 11 ∧ decodeInt64 s = .ok v.toNat) ∧
    (60 ^ 11 ≤ v →
      ∃ l, encodeInt64 v = .error (.overflow l 11) ∧ 11 < l) := by
  obtain ⟨N, rfl⟩ := Int.eq_ofNat_of_zero_le h0
  constructor
  · intro hlt
    have hN : N < 60 ^ 11 := by exact_mod_cast hlt
    have hL : (minChars 60 alphaChar N).length ≤ 11 := by
      by_cases hz : N = 0
      · simp [hz, minChars_length_zero]
      · rw [minChars_length_pos 60 alphaChar N hz]
        exact (digits_len_le_iff (by omega) N 11).mpr hN
    refine ⟨String.mk (fixedBE 60 alphaChar 11 N), ?_, ?_, ?_⟩
    · rw [encodeInt64_eq_pad, encodeBigInt_pad N 11 hN hL]
    · show (fixedBE 60 alphaChar 11 N).length = 11
      exact fixedBE_length 60 alphaChar 11 N
    · rw [decodeInt64]
      have hlen : (String.mk (fixedBE 60 alphaChar 11 N)).length = 11 :=
        fixedBE_length 60 alphaChar 11 N
      rw [if_neg (by omega)]
      rw [decode_fixedBE 11 N hN]
      simp
  · intro hge
    have hN : 60 ^ 11 ≤ N := by exact_mod_cast hge
    have hz : N ≠ 0 := by intro h; subst h; simp at hN
    have hL : 11 < (minChars 60 alphaChar N).length := by
      rw [minChars_length_pos 60 alphaChar N hz]
      by_contra hc
      push_neg at hc
      have := (digits_len_le_iff (by omega : (1:Nat) < 60) N 11).mp hc
      omega
    have henc : encodeInt64 (N : Int)
        = leftPad (String.mk (minChars 60 alphaChar N)) 11 := by
      show Except.bind (encodeBigInt (N : Int) none) (fun s => leftPad s 11) = _
      rw [encodeBigInt_none N]
      rfl
    refine ⟨(minChars 60 alphaChar N).length, ?_, hL⟩
    rw [henc, leftPad, if_pos (show 11 < (String.mk (minChars 60 alphaChar N)).length from hL)]
    rfl

/-- C10 witness: `2 ^ 64` (outside the declared 64-bit domain but below
`60 ^ 11`) is accepted and round-trips. -/
theorem encodeInt64_no_range_check_check :
    (0:Int) ≤ 2 ^ 64 ∧ ((2:Int) ^ 64 < 60 ^ 11) ∧
      ∃ s, encodeInt64 (2 ^ 64) = .ok s ∧ s.length = 11 ∧
        decodeInt64 s = .ok ((2:Int) ^ 64).toNat :=
  ⟨by decide, by decide,
    (encodeInt64_no_range_check (2 ^ 64) (by decide)).1 (by decide)⟩

/-! ### Validity, error reporting and ordering -/

theorem exceptBind_ok {ε α β : Type} (x : α) (f : α → Except ε β) :
    Except.bind (Except.ok x) f = f x := rfl

theorem decodeLoop_cases (l : List Char) (a : Nat) :
    (l.all (fun c => alphabet.contains c) = true ∧ ∃ n, decodeLoop l a = .ok n) ∨
    (l.all (fun c => alphabet.contains c) = false ∧
      ∃ c, decodeLoop l a = .error (.invalidCharacter c) ∧ c ∈ l ∧
        alphabet.contains c = false) := by
  induction l generalizing a with
  | nil => exact Or.inl ⟨rfl, a, rfl⟩
  | cons c cs ih =>
    cases hc : charToValue c with
    | none =>
      have hcont : alphabet.contains c = false := by
        rw [← indexIn_isSome_iff_contains,
          show indexIn alphabet c = charToValue c from rfl, hc]
        rfl
      refine Or.inr ⟨?_, c, ?_, List.mem_cons_self c cs, hcont⟩
      · rw [List.all_cons, hcont, Bool.false_and]
      · simp [decodeLoop, hc]
    | some d =>
      have hcont : alphabet.contains c = true := by
        rw [← indexIn_isSome_iff_contains,
          show indexIn alphabet c = charToValue c from rfl, hc]
        rfl
      have hall : (c :: cs).all (fun c => alphabet.contains c)
          = cs.all (fun c => alphabet.contains c) := by
        rw [List.all_cons, hcont, Bool.true_and]
      rcases ih (a * base + d) with ⟨h1, n, h2⟩ | ⟨h1, x, h2, h3, h4⟩
      · exact Or.inl ⟨by rw [hall, h1], n, by simp [decodeLoop, hc, h2]⟩
      · exact Or.inr ⟨by rw [hall, h1], x, by simp [decodeLoop, hc, h2],
          List.mem_cons_of_mem c h3, h4⟩

/-- C8: `decodeToBigInt` succeeds exactly on the strings `isValidBase60`
accepts, and otherwise fails with an InvalidCharacterError that names an
offending non-alphabet character of the input. -/
theorem decode_iff_valid (t : String) :
    (isValidBase60 t = true ∧ ∃ n, decodeToBigInt t = .ok n) ∨
    (isValidBase60 t = false ∧
      ∃ c, decodeToBigInt t = .error (.invalidCharacter c) ∧ c ∈ t.data ∧
        alphabet.contains c = false) :=
  decodeLoop_cases t.data 0

/-- Digit value of a symbol (0 for non-alphabet characters); states the
alphabet's symbol order. -/
def symbolVal (c : Char) : Nat := (charToValue c).getD 0

/-- Lexicographic comparison of two strings under the alphabet's symbol
order (symbol order matching digit-value order), following the spec's
wording. -/
def lexCompare60 : List Char → List Char → Int
  | [], [] => 0
  | [], _ :: _ => -1
  | _ :: _, [] => 1
  | a :: as, b :: bs =>
    if symbolVal a < symbolVal b then -1
    else if symbolVal b < symbolVal a then 1
    else lexCompare60 as bs

theorem symbolVal_lt (c : Char) (h : alphabet.contains c = true) :
    symbolVal c < 60 := by
  rw [← indexIn_isSome_iff_contains] at h
  obtain ⟨d, hd⟩ := Option.isSome_iff_exists.mp h
  have hlt := indexIn_lt_length alphabet c d hd
  have h60 : alphabet.length = 60 := rfl
  simp only [symbolVal, charToValue, hd, Option.getD_some]
  omega

theorem decodeLoop_val (l : List Char) (a : Nat)
    (h : l.all (fun c => alphabet.contains c) = true) :
    decodeLoop l a = .ok (l.foldl (fun v c => v * 60 + symbolVal c) a) := by
  induction l generalizing a with
  | nil => rfl
  | cons c cs ih =>
    rw [List.all_cons, Bool.and_eq_true] at h
    have hd : (indexIn alphabet c).isSome = true := by
      rw [indexIn_isSome_iff_contains]; exact h.1
    obtain ⟨d, hd⟩ := Option.isSome_iff_exists.mp hd
    have hcv : charToValue c = some d := hd
    simp only [decodeLoop, hcv, List.foldl_cons]
    have hacc : a * base + d = a * 60 + symbolVal c := by
      rw [base_eq]
      simp [symbolVal, hcv]
    rw [hacc]
    exact ih _ h.2

theorem horner_compare (asl : List Char) : ∀ (bsl : List Char),
    asl.length = bsl.length →
    asl.all (fun c => alphabet.contains c) = true →
    bsl.all (fun c => alphabet.contains c) = true →
    ∀ x y : Nat,
      (if (asl.foldl (fun v c => v * 60 + symbolVal c) x)
            < (bsl.foldl (fun v c => v * 60 + symbolVal c) y) then (-1 : Int)
        else if (bsl.foldl (fun v c => v * 60 + symbolVal c) y)
            < (asl.foldl (fun v c => v * 60 + symbolVal c) x) then 1 else 0)
      = if x < y then -1 else if y < x then 1 else lexCompare60 asl bsl := by
  induction asl with
  | nil =>
    intro bsl hlen _ _ x y
    cases bsl with
    | nil => simp [lexCompare60]
    | cons b bs => simp at hlen
  | cons a as ih =>
    intro bsl hlen ha hb x y
    cases bsl with
    | nil => simp at hlen
    | cons b bs =>
      have hlen' : as.length = bs.length := by simpa using hlen
      rw [List.all_cons, Bool.and_eq_true] at ha hb
      have hia := symbolVal_lt a ha.1
      have hib := symbolVal_lt b hb.1
      rw [List.foldl_cons, List.foldl_cons,
        ih bs hlen' ha.2 hb.2 (x * 60 + symbolVal a) (y * 60 + symbolVal b)]
      show _ = if x < y then (-1:Int) else if y < x then 1
        else if symbolVal a < symbolVal b then -1
        else if symbolVal b < symbolVal a then 1 else lexCompare60 as bs
      split_ifs <;> first | rfl | (exfalso; omega)

/-- C9: on two equal-length valid base-60 strings, `compareAsBigInt` (numeric
comparison of the decoded integers, as -1/0/1) coincides with lexicographic
comparison under the alphabet's symbol order. -/
theorem compare_eq_lex (a b : String) (ha : isValidBase60 a = true)
    (hb : isValidBase60 b = true) (hlen : a.length = b.length) :
    compareAsBigInt a b = .ok (lexCompare60 a.data b.data) := by
  have hda := decodeLoop_val a.data 0 ha
  have hdb := decodeLoop_val b.data 0 hb
  have hcmp := horner_compare a.data b.data hlen ha hb 0 0
  simp only [Nat.lt_irrefl, if_false] at hcmp
  show Except.bind (decodeLoop a.data 0)
    (fun ai => Except.bind (decodeLoop b.data 0)
      (fun bi => Except.ok (if ai < bi then -1 else if bi < ai then 1 else 0))) = _
  rw [hda, hdb, exceptBind_ok, exceptBind_ok, hcmp]

/-- C9 witness: "0z" and "10" are valid, of equal length, and compare
consistently. -/
theorem compare_eq_lex_check :
    isValidBase60 "0z" = true ∧ isValidBase60 "10" = true ∧
      ("0z" : String).length = ("10" : String).length ∧
      compareAsBigInt "0z" "10" = .ok (lexCompare60 ("0z" : String).data ("10" : String).data) :=
  ⟨by decide, by decide, by decide,
    compare_eq_lex "0z" "10" (by decide) (by decide) (by decide)⟩

/-! ### parseInt character lemmas -/

theorem ws_not_digit :
    wsChars.all (fun c => (indexIn base36chars (toLowerAscii c)).isNone) = true := by
  decide

theorem digitValR_some (r : Nat) (c : Char) (d : Nat)
    (h : digitValR r c = some d) :
    d < r ∧ indexIn base36chars (toLowerAscii c) = some d ∧
      digitChar36 d = toLowerAscii c ∧ d < 36 := by
  rw [digitValR] at h
  cases hi : indexIn base36chars (toLowerAscii c) with
  | none => rw [hi] at h; simp at h
  | some e =>
    rw [hi] at h
    change (if e < r then some e else none) = some d at h
    by_cases he : e < r
    · rw [if_pos he] at h
      cases h
      have h36 : base36chars.length = 36 := rfl
      have := indexIn_lt_length _ _ _ hi
      refine ⟨he, rfl, ?_, by omega⟩
      exact indexIn_getD _ _ _ _ hi
    · rw [if_neg he] at h
      simp at h

theorem digitValR_not_ws (r : Nat) (c : Char) (d : Nat)
    (h : digitValR r c = some d) : isJSWhitespace c = false := by
  by_contra hc
  have hmem : c ∈ wsChars := by
    rw [isJSWhitespace] at hc
    simp only [Bool.not_eq_false] at hc
    simpa using hc
  have hnone := List.all_eq_true.mp ws_not_digit c hmem
  obtain ⟨-, hi, -, -⟩ := digitValR_some r c d h
  rw [hi] at hnone
  simp at hnone

theorem digitValR_ne_minus (r : Nat) (c : Char) (d : Nat)
    (h : digitValR r c = some d) : c ≠ '-' := by
  intro he
  subst he
  have : indexIn base36chars (toLowerAscii '-') = none := by decide
  rw [digitValR, this] at h
  simp at h

theorem digitValR_ne_plus (r : Nat) (c : Char) (d : Nat)
    (h : digitValR r c = some d) : c ≠ '+' := by
  intro he
  subst he
  have : indexIn base36chars (toLowerAscii '+') = none := by decide
  rw [digitValR, this] at h
  simp at h

theorem digitValR16_ne_x (c : Char) (d : Nat)
    (h : digitValR 16 c = some d) : c ≠ 'x' ∧ c ≠ 'X' := by
  constructor <;> intro he <;> subst he
  · rw [show digitValR 16 'x' = none from by decide] at h
    simp at h
  · rw [show digitValR 16 'X' = none from by decide] at h
    simp at h

theorem parseIntJS16_pair (c d : Char) (a b : Nat)
    (hc : digitValR 16 c = some a) (hd : digitValR 16 d = some b) :
    parseIntJS 16 [c, d] = some ((16 * a + b : Nat) : Int) := by
  have hwsc : isJSWhitespace c = false := digitValR_not_ws 16 c a hc
  have hdrop : List.dropWhile isJSWhitespace [c, d] = [c, d] := by
    rw [List.dropWhile_cons, if_neg (by simp [hwsc])]
  rw [parseIntJS, hdrop]
  show (if c = '-' then parseAfterSign 16 [d] true
    else if c = '+' then parseAfterSign 16 [d] false
    else parseAfterSign 16 [c, d] false) = _
  rw [if_neg (digitValR_ne_minus 16 c a hc), if_neg (digitValR_ne_plus 16 c a hc)]
  have hstrip : strip0x 16 [c, d] = [c, d] := by
    rw [strip0x, if_pos rfl]
    show (if c = '0' ∧ (d = 'x' ∨ d = 'X') then [] else [c, d]) = [c, d]
    rw [if_neg]
    rintro ⟨-, hx | hX⟩
    · exact (digitValR16_ne_x d b hd).1 hx
    · exact (digitValR16_ne_x d b hd).2 hX
  rw [parseAfterSign, hstrip]
  have htake : List.takeWhile (fun c => (digitValR 16 c).isSome) [c, d] = [c, d] := by
    rw [List.takeWhile_cons, if_pos (by simp [hc]), List.takeWhile_cons,
      if_pos (by simp [hd])]
    rfl
  rw [takeDigitsVal]
  simp only [htake, List.isEmpty_cons, if_false, List.foldl_cons, List.foldl_nil,
    hc, hd, Option.getD_some, Option.map_some, Bool.false_eq_true]
  simp
  ring

theorem toUint8_lt (v : Option Int) : toUint8 v < 256 := by
  cases v with
  | none => decide
  | some i =>
    rw [toUint8]
    have h1 : 0 ≤ i % 256 := Int.emod_nonneg i (by norm_num)
    have h2 : i % 256 < 256 := Int.emod_lt_of_pos i (by norm_num)
    omega

theorem toUint8_pair (c d : Char) (a b : Nat)
    (hc : digitValR 16 c = some a) (hd : digitValR 16 d = some b) :
    toUint8 (parseIntJS 16 [c, d]) = 16 * a + b := by
  have ha := (digitValR_some 16 c a hc).1
  have hb := (digitValR_some 16 d b hd).1
  rw [parseIntJS16_pair c d a b hc hd, toUint8]
  have hlt : ((16 * a + b : Nat) : Int) < 256 := by
    push_cast
    omega
  rw [Int.emod_eq_of_lt (by positivity) hlt]
  omega

/-! ### Hex-string byte conversion -/

theorem digitValR16_digitChar_fin :
    ∀ d : Fin 16, digitValR 16 (digitChar36 d.val) = some d.val := by decide

theorem digitValR16_digitChar (d : Nat) (hd : d < 16) :
    digitValR 16 (digitChar36 d) = some d :=
  digitValR16_digitChar_fin ⟨d, hd⟩

theorem pairBytes_length : ∀ l : List Char, (pairBytes l).length = l.length / 2
  | [] => rfl
  | [_] => by simp [pairBytes]
  | c :: d :: rest => by
    simp only [pairBytes, List.length_cons]
    rw [pairBytes_length rest]
    omega

theorem pairBytes_lt : ∀ l : List Char, ∀ x ∈ pairBytes l, x < 256
  | [] => by simp [pairBytes]
  | [c] => by simp [pairBytes]
  | c :: d :: rest => by
    intro x hx
    simp only [pairBytes] at hx
    rcases List.mem_cons.mp hx with rfl | hx
    · exact toUint8_lt _
    · exact pairBytes_lt rest x hx

theorem pairBytes_append : ∀ l : List Char, l.length % 2 = 0 → ∀ c d : Char,
    pairBytes (l ++ [c, d]) = pairBytes l ++ [toUint8 (parseIntJS 16 [c, d])]
  | [], _, c, d => rfl
  | [x], h, _, _ => by
    simp only [List.length_cons, List.length_nil] at h
    omega
  | x :: y :: rest, h, c, d => by
    have hr : rest.length % 2 = 0 := by
      simp only [List.length_cons] at h
      omega
    rw [List.cons_append, List.cons_append]
    simp only [pairBytes]
    rw [pairBytes_append rest hr c d]
    rfl

/-- The even-length zero-padded hex rendering used by `bigIntToBytes`. -/
def evenHex (N : Nat) : List Char :=
  if (natToStringR 16 N).length % 2 = 1 then '0' :: natToStringR 16 N
  else natToStringR 16 N

theorem evenHex_even (N : Nat) : (evenHex N).length % 2 = 0 := by
  rw [evenHex]
  split
  · simp only [List.length_cons]
    omega
  · omega

/-- Parsing the even-padded hex string of `N` in byte pairs produces exactly
the minimal big-endian base-256 digits of `N`. -/
theorem pairBytes_evenHex (N : Nat) :
    pairBytes (evenHex N) = minChars 256 (fun x => x) N := by
  induction N using Nat.strong_induction_on with
  | _ N ih =>
    by_cases h0 : N = 0
    · subst h0
      decide
    · have h16 : natToStringR 16 N = ((Nat.digits 16 N).map digitChar36).reverse := by
        rw [natToStringR_eq_minChars 16 (by omega) N]
        simp [minChars, h0]
      by_cases hlt : N < 256
      · have hd256 : Nat.digits 256 N = [N] := by
          rw [Nat.digits_def' (by omega : (1:Nat) < 256) (Nat.pos_of_ne_zero h0)]
          rw [Nat.mod_eq_of_lt hlt, Nat.div_eq_of_lt hlt, Nat.digits_zero]
        have hrhs : minChars 256 (fun x => x) N = [N] := by
          simp [minChars, h0, hd256]
        by_cases hsm : N < 16
        · have hd16 : Nat.digits 16 N = [N] := by
            rw [Nat.digits_def' (by omega : (1:Nat) < 16) (Nat.pos_of_ne_zero h0)]
            rw [Nat.mod_eq_of_lt hsm, Nat.div_eq_of_lt hsm, Nat.digits_zero]
          have hhex : evenHex N = ['0', digitChar36 N] := by
            rw [evenHex, h16, hd16]
            rfl
          rw [hhex, hrhs]
          show toUint8 (parseIntJS 16 ['0', digitChar36 N]) :: pairBytes [] = [N]
          rw [toUint8_pair '0' (digitChar36 N) 0 N (by decide)
            (digitValR16_digitChar N hsm)]
          simp [pairBytes]
        · have hq1 : N / 16 < 16 := by omega
          have hqpos : 0 < N / 16 := Nat.div_pos (by omega) (by omega)
          have hd16 : Nat.digits 16 N = [N % 16, N / 16] := by
            rw [Nat.digits_def' (by omega : (1:Nat) < 16) (Nat.pos_of_ne_zero h0),
              Nat.digits_def' (by omega : (1:Nat) < 16) hqpos,
              Nat.mod_eq_of_lt hq1, Nat.div_eq_of_lt hq1, Nat.digits_zero]
          have hhex : evenHex N = [digitChar36 (N / 16), digitChar36 (N % 16)] := by
            rw [evenHex, h16, hd16]
            simp
          rw [hhex, hrhs]
          show toUint8 (parseIntJS 16 [digitChar36 (N / 16), digitChar36 (N % 16)])
            :: pairBytes [] = [N]
          rw [toUint8_pair _ _ (N / 16) (N % 16) (digitValR16_digitChar _ hq1)
            (digitValR16_digitChar _ (by omega))]
          simp only [pairBytes, List.cons.injEq, and_true]
          omega
      · -- N ≥ 256: peel the low byte (two low hex digits)
        push_neg at hlt
        have hqpos : 0 < N / 256 := Nat.div_pos hlt (by omega)
        have hq0 : N / 256 ≠ 0 := by omega
        have h16N : 16 ≤ N / 16 := (Nat.le_div_iff_mul_le (by omega)).mpr (by omega)
        have hdd : N / 16 / 16 = N / 256 := by
          rw [Nat.div_div_eq_div_mul]
        have hd16 : Nat.digits 16 N
            = N % 16 :: (N / 16) % 16 :: Nat.digits 16 (N / 256) := by
          rw [Nat.digits_def' (by omega : (1:Nat) < 16) (Nat.pos_of_ne_zero h0),
            Nat.digits_def' (by omega : (1:Nat) < 16) (by omega : 0 < N / 16), hdd]
        have hA : natToStringR 16 (N / 256)
            = ((Nat.digits 16 (N / 256)).map digitChar36).reverse := by
          rw [natToStringR_eq_minChars 16 (by omega) (N / 256)]
          simp [minChars, hq0]
        have hsplit : natToStringR 16 N
            = natToStringR 16 (N / 256)
              ++ [digitChar36 ((N / 16) % 16), digitChar36 (N % 16)] := by
          rw [h16, hA, hd16]
          simp
        have hev : evenHex N = evenHex (N / 256)
            ++ [digitChar36 ((N / 16) % 16), digitChar36 (N % 16)] := by
          rw [evenHex, evenHex, hsplit]
          by_cases hp : (natToStringR 16 (N / 256)).length % 2 = 1
          · rw [if_pos hp,
              if_pos (by
                rw [List.length_append]
                simp only [List.length_cons, List.length_nil]
                omega)]
            rfl
          · rw [if_neg hp,
              if_neg (by
                rw [List.length_append]
                simp only [List.length_cons, List.length_nil]
                omega)]
        rw [hev, pairBytes_append _ (evenHex_even (N / 256)) _ _,
          ih (N / 256) (by omega),
          toUint8_pair _ _ ((N / 16) % 16) (N % 16)
            (digitValR16_digitChar _ (by omega)) (digitValR16_digitChar _ (by omega))]
        have hd256 : Nat.digits 256 N = N % 256 :: Nat.digits 256 (N / 256) :=
          Nat.digits_def' (by omega) (Nat.pos_of_ne_zero h0)
        have hrhs : minChars 256 (fun x => x) N
            = minChars 256 (fun x => x) (N / 256) ++ [N % 256] := by
          simp [minChars, h0, hq0, hd256]
        rw [hrhs]
        congr 1
        simp only [List.cons.injEq, and_true]
        omega

/-- `bigIntToBytes` with a fixed length produces the fixed-width big-endian
byte rendering. -/
theorem bigIntToBytes_fixed (N k : Nat) (hk : 0 < k) (hN : N < 256 ^ k) :
    bigIntToBytes (N : Int) (some k) = .ok (fixedBE 256 (fun x => x) k N) := by
  have hneg : ¬((N : Int) < 0) := by simp
  have hlen : (minChars 256 (fun x => x) N).length ≤ k := by
    by_cases h0 : N = 0
    · rw [h0, minChars_length_zero]
      omega
    · rw [minChars_length_pos 256 _ N h0]
      exact (digits_len_le_iff (by omega) N k).mpr hN
  simp only [bigIntToBytes, if_neg hneg, Int.toNat_natCast]
  have he : (if (natToStringR 16 N).length % 2 = 1 then '0' :: natToStringR 16 N
      else natToStringR 16 N) = evenHex N := rfl
  rw [he, pairBytes_evenHex N]
  rw [if_neg (by omega)]
  rw [pad_minChars_eq_fixedBE 256 (fun x => x) k N (by omega) hN hlen]

theorem byteToHex2_eq (b : Nat) (hb : b < 256) :
    byteToHex2 b = fixedBE 16 digitChar36 2 b := by
  have hlen : (minChars 16 digitChar36 b).length ≤ 2 := by
    by_cases h0 : b = 0
    · rw [h0, minChars_length_zero]
      omega
    · rw [minChars_length_pos _ _ _ h0]
      exact (digits_len_le_iff (by omega) b 2).mpr (by omega)
  have hpad := pad_minChars_eq_fixedBE 16 digitChar36 2 b (by omega)
    (by omega : b < 16 ^ 2) hlen
  show List.replicate (2 - (natToStringR 16 b).length) '0' ++ natToStringR 16 b = _
  rw [natToStringR_eq_minChars 16 (by omega) b,
    show '0' = digitChar36 0 from rfl]
  exact hpad

theorem byteToBits_eq (b : Nat) (hb : b < 256) :
    byteToBits b = fixedBE 2 digitChar36 8 b := by
  have hlen : (minChars 2 digitChar36 b).length ≤ 8 := by
    by_cases h0 : b = 0
    · rw [h0, minChars_length_zero]
      omega
    · rw [minChars_length_pos _ _ _ h0]
      exact (digits_len_le_iff (by omega) b 8).mpr (by omega)
  have hpad := pad_minChars_eq_fixedBE 2 digitChar36 8 b (by omega)
    (by omega : b < 2 ^ 8) hlen
  show List.replicate (8 - (natToStringR 2 b).length) '0' ++ natToStringR 2 b = _
  rw [natToStringR_eq_minChars 2 (by omega) b,
    show '0' = digitChar36 0 from rfl]
  exact hpad

theorem fixedBE_mem_lt (B : Nat) (hB : 0 < B) (k : Nat) :
    ∀ N, ∀ x ∈ fixedBE B (fun y => y) k N, x < B := by
  induction k with
  | zero => intro N x hx; simp [fixedBE] at hx
  | succ k ih =>
    intro N x hx
    rw [fixedBE] at hx
    rcases List.mem_append.mp hx with hx | hx
    · exact ih (N / B) x hx
    · have : x = N % B := by simpa using hx
      rw [this]
      exact Nat.mod_lt N hB

/-- Splitting a fixed-width base-`c^m` rendering digit by digit into
fixed-width base-`c` renderings of `m` digits each flattens to the fixed
`m*k`-digit base-`c` rendering. -/
theorem flatten_map_fixedBE {α : Type} (c m : Nat) (f : Nat → α) :
    ∀ (k N : Nat),
      ((fixedBE (c ^ m) (fun x => x) k N).map (fun b => fixedBE c f m b)).flatten
        = fixedBE c f (m * k) N := by
  intro k
  induction k with
  | zero =>
    intro N
    simp [fixedBE]
  | succ k ih =>
    intro N
    rw [fixedBE, List.map_append, List.flatten_append]
    simp only [List.map_cons, List.map_nil, List.flatten_cons, List.flatten_nil,
      List.append_nil]
    rw [ih]
    rw [show m * (k + 1) = m * k + m by ring, fixedBE_compose c f (m * k) m N]

/-! ### UUID round-trip machinery -/

/-- Hexadecimal digit test (exactly the characters `parseInt(·, 16)`
recognises as digits: `0-9`, `a-f`, `A-F`). -/
def isHexDigit (c : Char) : Bool := (digitValR 16 c).isSome

theorem foldl_pairBytes : ∀ hs : List Char, hs.length % 2 = 0 →
    (∀ c ∈ hs, (digitValR 16 c).isSome = true) → ∀ a : Nat,
    (pairBytes hs).foldl (fun r b => r * 256 + b) a
      = hs.foldl (fun v c => v * 16 + (digitValR 16 c).getD 0) a
  | [], _, _, a => rfl
  | [x], h, _, _ => by
    simp only [List.length_cons, List.length_nil] at h
    omega
  | c :: d :: rest, h, hd, a => by
    have hr : rest.length % 2 = 0 := by
      simp only [List.length_cons] at h
      omega
    obtain ⟨va, hva⟩ := Option.isSome_iff_exists.mp (hd c (by simp))
    obtain ⟨vb, hvb⟩ := Option.isSome_iff_exists.mp (hd d (by simp))
    simp only [pairBytes, List.foldl_cons]
    rw [toUint8_pair c d va vb hva hvb, hva, hvb]
    simp only [Option.getD_some]
    rw [show a * 256 + (16 * va + vb) = (a * 16 + va) * 16 + vb by ring]
    exact foldl_pairBytes rest hr (fun x hx => hd x (by simp [hx])) _

theorem pairBytes_val_lt (hs : List Char) (hlen : hs.length = 32) :
    bytesToBigInt (pairBytes hs) < 256 ^ 16 := by
  have hlenp : (pairBytes hs).length = 16 := by
    rw [pairBytes_length, hlen]
  have h := foldl_horner_lt 256 (by omega) (pairBytes hs) (pairBytes_lt hs)
  rw [hlenp] at h
  exact h

theorem fixedBE_of_hexChars (hs : List Char) (hlen : hs.length = 32)
    (hhex : ∀ c ∈ hs, isHexDigit c = true) :
    fixedBE 16 digitChar36 32 (bytesToBigInt (pairBytes hs))
      = hs.map toLowerAscii := by
  have hval : bytesToBigInt (pairBytes hs)
      = (hs.map (fun c => (digitValR 16 c).getD 0)).foldl (fun v d => v * 16 + d) 0 := by
    show (pairBytes hs).foldl (fun r b => r * 256 + b) 0 = _
    rw [foldl_pairBytes hs (by omega) hhex 0, List.foldl_map]
  have hD : ∀ d ∈ hs.map (fun c => (digitValR 16 c).getD 0), d < 16 := by
    intro d hd
    obtain ⟨c, hc, rfl⟩ := List.mem_map.mp hd
    obtain ⟨v, hv⟩ := Option.isSome_iff_exists.mp (hhex c hc)
    rw [hv, Option.getD_some]
    exact (digitValR_some 16 c v hv).1
  have hlenD : (hs.map (fun c => (digitValR 16 c).getD 0)).length = 32 := by
    simp [hlen]
  rw [hval, ← hlenD, fixedBE_foldl 16 digitChar36 _ hD, List.map_map]
  apply List.map_congr_left
  intro c hc
  obtain ⟨v, hv⟩ := Option.isSome_iff_exists.mp (hhex c hc)
  simp only [Function.comp_apply, hv, Option.getD_some]
  exact (digitValR_some 16 c v hv).2.2.1

theorem minChars60_len_le (N k : Nat) (hk : 0 < k) (hN : N < 60 ^ k) :
    (minChars 60 alphaChar N).length ≤ k := by
  by_cases h0 : N = 0
  · rw [h0, minChars_length_zero]
    omega
  · rw [minChars_length_pos 60 alphaChar N h0]
    exact (digits_len_le_iff (by omega) N k).mpr hN

theorem leftPad_minChars (N k : Nat) (hN : N < 60 ^ k)
    (hL : (minChars 60 alphaChar N).length ≤ k) :
    leftPad (String.mk (minChars 60 alphaChar N)) k
      = .ok (String.mk (fixedBE 60 alphaChar k N)) := by
  rw [leftPad]
  have hle : (String.mk (minChars 60 alphaChar N)).length
      = (minChars 60 alphaChar N).length := rfl
  rw [if_neg (by rw [hle]; omega),
    ← pad_minChars_eq_fixedBE 60 alphaChar k N (by omega) hN hL]
  rfl

theorem encodeUUID_of_len32 (u : String) (h32 : (stripHyphens u).length = 32) :
    encodeUUID u = .ok (String.mk (fixedBE 60 alphaChar 22
      (bytesToBigInt (pairBytes (stripHyphens u).data)))) := by
  have hNlt : bytesToBigInt (pairBytes (stripHyphens u).data) < 256 ^ 16 :=
    pairBytes_val_lt _ h32
  have hN60 : bytesToBigInt (pairBytes (stripHyphens u).data) < 60 ^ 22 := by
    calc bytesToBigInt (pairBytes (stripHyphens u).data) < 256 ^ 16 := hNlt
    _ < 60 ^ 22 := by norm_num
  rw [encodeUUID, if_neg (by omega)]
  show Except.bind (encodeBigInt ((bytesToBigInt (pairBytes (stripHyphens u).data) : Nat) : Int) none)
    (fun raw => leftPad raw 22) = _
  rw [encodeBigInt_none, exceptBind_ok,
    leftPad_minChars _ 22 hN60 (minChars60_len_le _ 22 (by omega) hN60)]

theorem decodeUUID_eq (t : String) :
    decodeUUID t = Except.bind (decodeToBigInt t) (fun value =>
      Except.bind (bigIntToBytes ((value : Nat) : Int) (some 16)) (fun bytes =>
        Except.ok (String.mk ((bytes.map byteToHex2).flatten.take 8 ++ '-' ::
          (((bytes.map byteToHex2).flatten.drop 8).take 4) ++ '-' ::
          (((bytes.map byteToHex2).flatten.drop 12).take 4) ++ '-' ::
          (((bytes.map byteToHex2).flatten.drop 16).take 4) ++ '-' ::
          (bytes.map byteToHex2).flatten.drop 20)))) := rfl

theorem decodeUUID_fixed (N : Nat) (hN : N < 256 ^ 16) :
    decodeUUID (String.mk (fixedBE 60 alphaChar 22 N)) = .ok (String.mk
      ((fixedBE 16 digitChar36 32 N).take 8 ++ '-' ::
        (((fixedBE 16 digitChar36 32 N).drop 8).take 4) ++ '-' ::
        (((fixedBE 16 digitChar36 32 N).drop 12).take 4) ++ '-' ::
        (((fixedBE 16 digitChar36 32 N).drop 16).take 4) ++ '-' ::
        (fixedBE 16 digitChar36 32 N).drop 20)) := by
  have hN60 : N < 60 ^ 22 := by
    calc N < 256 ^ 16 := hN
    _ < 60 ^ 22 := by norm_num
  have hmap : (fixedBE 256 (fun x => x) 16 N).map byteToHex2
      = (fixedBE 256 (fun x => x) 16 N).map (fun b => fixedBE 16 digitChar36 2 b) :=
    List.map_congr_left
      (fun b hb => byteToHex2_eq b (fixedBE_mem_lt 256 (by omega) 16 N b hb))
  rw [decodeUUID_eq, decode_fixedBE 22 N hN60]
  simp only [exceptBind_ok]
  rw [bigIntToBytes_fixed N 16 (by omega) hN]
  simp only [exceptBind_ok]
  rw [hmap, show (256 : Nat) = 16 ^ 2 from rfl,
    flatten_map_fixedBE 16 2 digitChar36 16 N,
    show 2 * 16 = 32 from rfl]

theorem filter_hex (l : List Char) (h : ∀ c ∈ l, isHexDigit c = true) :
    l.filter (fun c => c ≠ '-') = l := by
  apply List.filter_eq_self.mpr
  intro a ha
  obtain ⟨v, hv⟩ := Option.isSome_iff_exists.mp (h a ha)
  simpa using digitValR_ne_minus 16 a v hv

theorem filter_hyphen_cons (l : List Char) :
    ('-' :: l).filter (fun c => c ≠ '-') = l.filter (fun c => c ≠ '-') := by
  rw [List.filter_cons]
  simp

/-- C2: for every valid 36-character hyphenated hex UUID string,
`decodeUUID (encodeUUID u)` returns `u` normalised to lowercase: 36
characters, lowercase hex, hyphens re-inserted in 8-4-4-4-12 grouping,
representing the same 16 bytes. -/
theorem uuid_roundtrip (u : String) (g1 g2 g3 g4 g5 : List Char)
    (hu : u.data = g1 ++ '-' :: (g2 ++ '-' :: (g3 ++ '-' :: (g4 ++ '-' :: g5))))
    (hl1 : g1.length = 8) (hl2 : g2.length = 4) (hl3 : g3.length = 4)
    (hl4 : g4.length = 4) (hl5 : g5.length = 12)
    (hhex : ∀ c ∈ g1 ++ g2 ++ g3 ++ g4 ++ g5, isHexDigit c = true) :
    ∃ s, encodeUUID u = .ok s ∧
      decodeUUID s = .ok (String.mk (u.data.map toLowerAscii)) := by
  have hh1 : ∀ c ∈ g1, isHexDigit c = true := fun c hc => hhex c (by simp [hc])
  have hh2 : ∀ c ∈ g2, isHexDigit c = true := fun c hc => hhex c (by simp [hc])
  have hh3 : ∀ c ∈ g3, isHexDigit c = true := fun c hc => hhex c (by simp [hc])
  have hh4 : ∀ c ∈ g4, isHexDigit c = true := fun c hc => hhex c (by simp [hc])
  have hh5 : ∀ c ∈ g5, isHexDigit c = true := fun c hc => hhex c (by simp [hc])
  have hslen : (g1 ++ (g2 ++ (g3 ++ (g4 ++ g5)))).length = 32 := by
    simp [hl1, hl2, hl3, hl4, hl5]
  have hstrip : (stripHyphens u).data = g1 ++ (g2 ++ (g3 ++ (g4 ++ g5))) := by
    show u.data.filter (fun c => c ≠ '-') = _
    rw [hu, List.filter_append, filter_hex g1 hh1, filter_hyphen_cons,
      List.filter_append, filter_hex g2 hh2, filter_hyphen_cons,
      List.filter_append, filter_hex g3 hh3, filter_hyphen_cons,
      List.filter_append, filter_hex g4 hh4, filter_hyphen_cons,
      filter_hex g5 hh5]
  have h32 : (stripHyphens u).length = 32 := by
    show (stripHyphens u).data.length = 32
    rw [hstrip]
    exact hslen
  have hhex' : ∀ c ∈ g1 ++ (g2 ++ (g3 ++ (g4 ++ g5))), isHexDigit c = true := by
    intro c hc
    apply hhex
    simp only [List.mem_append] at hc ⊢
    tauto
  have hNlt := pairBytes_val_lt _ hslen
  have henc := encodeUUID_of_len32 u h32
  rw [hstrip] at henc
  have hdec := decodeUUID_fixed _ hNlt
  have hfix := fixedBE_of_hexChars _ hslen hhex'
  refine ⟨_, henc, ?_⟩
  rw [hdec, hfix]
  simp only [List.map_append]
  have m1 : (g1.map toLowerAscii).length = 8 := by simp [hl1]
  have m2 : (g2.map toLowerAscii).length = 4 := by simp [hl2]
  have m3 : (g3.map toLowerAscii).length = 4 := by simp [hl3]
  have m4 : (g4.map toLowerAscii).length = 4 := by simp [hl4]
  have t8 : (g1.map toLowerAscii ++ (g2.map toLowerAscii ++ (g3.map toLowerAscii
      ++ (g4.map toLowerAscii ++ g5.map toLowerAscii)))).take 8
      = g1.map toLowerAscii :=
    List.take_left' m1
  have d8 : (g1.map toLowerAscii ++ (g2.map toLowerAscii ++ (g3.map toLowerAscii
      ++ (g4.map toLowerAscii ++ g5.map toLowerAscii)))).drop 8
      = g2.map toLowerAscii ++ (g3.map toLowerAscii
        ++ (g4.map toLowerAscii ++ g5.map toLowerAscii)) :=
    List.drop_left' m1
  have d12 : (g1.map toLowerAscii ++ (g2.map toLowerAscii ++ (g3.map toLowerAscii
      ++ (g4.map toLowerAscii ++ g5.map toLowerAscii)))).drop 12
      = g3.map toLowerAscii ++ (g4.map toLowerAscii ++ g5.map toLowerAscii) := by
    have hdd : ((g1.map toLowerAscii ++ (g2.map toLowerAscii ++ (g3.map toLowerAscii
        ++ (g4.map toLowerAscii ++ g5.map toLowerAscii)))).drop 8).drop 4
        = (g1.map toLowerAscii ++ (g2.map toLowerAscii ++ (g3.map toLowerAscii
        ++ (g4.map toLowerAscii ++ g5.map toLowerAscii)))).drop 12 := by
      rw [List.drop_drop]
    rw [← hdd, d8]
    exact List.drop_left' m2
  have d16 : (g1.map toLowerAscii ++ (g2.map toLowerAscii ++ (g3.map toLowerAscii
      ++ (g4.map toLowerAscii ++ g5.map toLowerAscii)))).drop 16
      = g4.map toLowerAscii ++ g5.map toLowerAscii := by
    have hdd : ((g1.map toLowerAscii ++ (g2.map toLowerAscii ++ (g3.map toLowerAscii
        ++ (g4.map toLowerAscii ++ g5.map toLowerAscii)))).drop 12).drop 4
        = (g1.map toLowerAscii ++ (g2.map toLowerAscii ++ (g3.map toLowerAscii
        ++ (g4.map toLowerAscii ++ g5.map toLowerAscii)))).drop 16 := by
      rw [List.drop_drop]
    rw [← hdd, d12]
    exact List.drop_left' m3
  have d20 : (g1.map toLowerAscii ++ (g2.map toLowerAscii ++ (g3.map toLowerAscii
      ++ (g4.map toLowerAscii ++ g5.map toLowerAscii)))).drop 20
      = g5.map toLowerAscii := by
    have hdd : ((g1.map toLowerAscii ++ (g2.map toLowerAscii ++ (g3.map toLowerAscii
        ++ (g4.map toLowerAscii ++ g5.map toLowerAscii)))).drop 16).drop 4
        = (g1.map toLowerAscii ++ (g2.map toLowerAscii ++ (g3.map toLowerAscii
        ++ (g4.map toLowerAscii ++ g5.map toLowerAscii)))).drop 20 := by
      rw [List.drop_drop]
    rw [← hdd, d16]
    exact List.drop_left' m4
  rw [t8, d20]
  rw [d8, d12, d16, List.take_left' m2, List.take_left' m3, List.take_left' m4]
  rw [hu]
  simp only [List.map_append, List.map_cons,
    show toLowerAscii '-' = '-' from rfl]
  simp [List.cons_append, List.append_assoc]

/-- C2 witness: the canonical test UUID round-trips to itself (it is already
lowercase). -/
theorem uuid_roundtrip_check :
    (("550e8400-e29b-41d4-a716-446655440000" : String).data
        = ['5','5','0','e','8','4','0','0'] ++ '-' :: (['e','2','9','b'] ++ '-' ::
          (['4','1','d','4'] ++ '-' :: (['a','7','1','6'] ++ '-' ::
            ['4','4','6','6','5','5','4','4','0','0','0','0'])))) ∧
    (∀ c ∈ ['5','5','0','e','8','4','0','0'] ++ ['e','2','9','b'] ++ ['4','1','d','4']
        ++ ['a','7','1','6'] ++ ['4','4','6','6','5','5','4','4','0','0','0','0'],
      isHexDigit c = true) ∧
    ∃ s, encodeUUID "550e8400-e29b-41d4-a716-446655440000" = .ok s ∧
      decodeUUID s = .ok (String.mk
        (("550e8400-e29b-41d4-a716-446655440000" : String).data.map toLowerAscii)) :=
  ⟨by decide, by decide,
    uuid_roundtrip "550e8400-e29b-41d4-a716-446655440000"
      ['5','5','0','e','8','4','0','0'] ['e','2','9','b'] ['4','1','d','4']
      ['a','7','1','6'] ['4','4','6','6','5','5','4','4','0','0','0','0']
      (by decide) (by decide) (by decide) (by decide) (by decide) (by decide)
      (by decide)⟩

set_option maxHeartbeats 2000000 in
/-- C3 counterexample: `decodeUUID` accepts the 1-character input "0" and
returns a UUID string instead of failing with a LengthMismatchError. -/
theorem decodeUUID_len1 :
    decodeUUID "0" = .ok "00000000-0000-0000-0000-000000000000" ∧
      ("0" : String).length ≠ 22 := by
  constructor
  · decide
  · decide

/-- C3 (amended): `decodeUUID` performs no input-length check: any input that
decodes to a value below `2^128` — of any length — succeeds and yields a
36-character UUID string. -/
theorem decodeUUID_no_length_check (t : String) (n : Nat)
    (h : decodeToBigInt t = .ok n) (hn : n < 2 ^ 128) :
    ∃ s, decodeUUID t = .ok s ∧ s.length = 36 := by
  have hn' : n < 256 ^ 16 := by
    calc n < 2 ^ 128 := hn
    _ = 256 ^ 16 := by norm_num
  have hmap : (fixedBE 256 (fun x => x) 16 n).map byteToHex2
      = (fixedBE 256 (fun x => x) 16 n).map (fun b => fixedBE 16 digitChar36 2 b) :=
    List.map_congr_left
      (fun b hb => byteToHex2_eq b (fixedBE_mem_lt 256 (by omega) 16 n b hb))
  have hdec : decodeUUID t = .ok (String.mk
      ((fixedBE 16 digitChar36 32 n).take 8 ++ '-' ::
        (((fixedBE 16 digitChar36 32 n).drop 8).take 4) ++ '-' ::
        (((fixedBE 16 digitChar36 32 n).drop 12).take 4) ++ '-' ::
        (((fixedBE 16 digitChar36 32 n).drop 16).take 4) ++ '-' ::
        (fixedBE 16 digitChar36 32 n).drop 20)) := by
    rw [decodeUUID_eq, h]
    simp only [exceptBind_ok]
    rw [bigIntToBytes_fixed n 16 (by omega) hn']
    simp only [exceptBind_ok]
    rw [hmap, show (256 : Nat) = 16 ^ 2 from rfl,
      flatten_map_fixedBE 16 2 digitChar36 16 n, show 2 * 16 = 32 from rfl]
  refine ⟨_, hdec, ?_⟩
  have hfl : (fixedBE 16 digitChar36 32 n).length = 32 := fixedBE_length _ _ _ _
  show ((fixedBE 16 digitChar36 32 n).take 8 ++ '-' ::
      (((fixedBE 16 digitChar36 32 n).drop 8).take 4) ++ '-' ::
      (((fixedBE 16 digitChar36 32 n).drop 12).take 4) ++ '-' ::
      (((fixedBE 16 digitChar36 32 n).drop 16).take 4) ++ '-' ::
      (fixedBE 16 digitChar36 32 n).drop 20).length = 36
  simp only [List.length_append, List.length_cons, List.length_take,
    List.length_drop, hfl]
  omega

/-- C3 amended-claim witness. -/
theorem decodeUUID_no_length_check_check :
    decodeToBigInt "0" = .ok 0 ∧ (0 : Nat) < 2 ^ 128 ∧
      ∃ s, decodeUUID "0" = .ok s ∧ s.length = 36 :=
  ⟨by decide, by decide, decodeUUID_no_length_check "0" 0 (by decide) (by decide)⟩

set_option maxHeartbeats 4000000 in
/-- C4 counterexample: `encodeUUID` accepts a 36-character input whose 32
stripped characters are all `z` (not hex): every byte pair parses as `NaN`,
is coerced to 0, and the call returns the zero encoding instead of failing
with a FormatError. -/
theorem encodeUUID_accepts_nonhex :
    encodeUUID "zzzzzzzz-zzzz-zzzz-zzzz-zzzzzzzzzzzz" = .ok "0000000000000000000000" := by
  decide

/-- C4 (amended): after stripping hyphens, `encodeUUID` fails with a
FormatError exactly when the remaining text is not 32 characters long; the
characters themselves are never validated — every 32-character stripped
input is accepted (non-hex pairs parse leniently via `parseInt`) and encodes
to 22 characters. -/
theorem encodeUUID_length_only (u : String) :
    ((stripHyphens u).length ≠ 32 →
      encodeUUID u = .error (.formatError "invalid UUID")) ∧
    ((stripHyphens u).length = 32 →
      ∃ s, encodeUUID u = .ok s ∧ s.length = 22) := by
  constructor
  · intro h
    rw [encodeUUID, if_pos h]
  · intro h
    refine ⟨_, encodeUUID_of_len32 u h, ?_⟩
    show (fixedBE 60 alphaChar 22
      (bytesToBigInt (pairBytes (stripHyphens u).data))).length = 22
    exact fixedBE_length _ _ _ _

/-- C4 witness: the spec's own example "not-a-uuid" strips to 8 characters
and is rejected with a FormatError. -/
theorem encodeUUID_length_only_check :
    (stripHyphens "not-a-uuid").length ≠ 32 ∧
      encodeUUID "not-a-uuid" = .error (.formatError "invalid UUID") :=
  ⟨by decide, (encodeUUID_length_only "not-a-uuid").1 (by decide)⟩

/-! ### ULID round-trip machinery -/

/-- Crockford digit value of a symbol (0 for non-Crockford characters). -/
def crockVal (c : Char) : Nat := (indexIn crockford c).getD 0

/-- The 130-bit value a ULID string denotes: 26 five-bit Crockford groups of
the upper-cased text. -/
def ulidNat (u : String) : Nat :=
  u.data.foldl (fun v c => v * 32 + crockVal (upperAscii c)) 0

theorem ulidAccum_ok (l : List Char)
    (h : ∀ c ∈ l, crockford.contains c = true) :
    ∀ a, ulidAccum l a = .ok (l.foldl (fun v c => v * 32 + crockVal c) a) := by
  induction l with
  | nil => intro a; rfl
  | cons c cs ih =>
    intro a
    have hc : (indexIn crockford c).isSome = true := by
      rw [indexIn_isSome_iff_contains]
      exact h c (by simp)
    obtain ⟨d, hd⟩ := Option.isSome_iff_exists.mp hc
    simp only [ulidAccum, hd, List.foldl_cons]
    rw [show crockVal c = d by simp [crockVal, hd]]
    exact ih (fun x hx => h x (by simp [hx])) _

theorem encodeULID_ok (u : String) (hlen : u.length = 26)
    (hch : u.data.all (fun c => crockford.contains (upperAscii c)) = true)
    (hN : ulidNat u < 2 ^ 128) :
    encodeULID u = .ok (String.mk (fixedBE 60 alphaChar 22 (ulidNat u))) := by
  have hN60 : ulidNat u < 60 ^ 22 := by
    calc ulidNat u < 2 ^ 128 := hN
    _ < 60 ^ 22 := by norm_num
  have hvalid : ∀ c ∈ u.data.map upperAscii, crockford.contains c = true := by
    intro c hc
    obtain ⟨x, hx, rfl⟩ := List.mem_map.mp hc
    exact List.all_eq_true.mp hch x hx
  rw [encodeULID, if_pos ⟨hlen, hch⟩]
  show Except.bind (ulidAccum (u.data.map upperAscii) 0) _ = _
  rw [ulidAccum_ok _ hvalid 0, exceptBind_ok, List.foldl_map]
  show Except.bind (encodeBigInt ((ulidNat u : Nat) : Int) none)
    (fun raw => leftPad raw 22) = _
  rw [encodeBigInt_none, exceptBind_ok,
    leftPad_minChars _ 22 hN60 (minChars60_len_le _ 22 (by omega) hN60)]

theorem decodeULID_eq (t : String) (h : t.length = 22) :
    decodeULID t = Except.bind (decodeToBigInt t) (fun value =>
      Except.bind (bigIntToBytes ((value : Nat) : Int) (some 16)) (fun bytes =>
        Except.ok (String.mk (((List.range 26).map (fun i =>
          jsIndexChars crockford (parseIntJS 2
            (((List.replicate (130 - ((bytes.map byteToBits).flatten).length) '0'
              ++ (bytes.map byteToBits).flatten).drop (5 * i)).take 5)))).flatten)))) := by
  rw [decodeULID, if_neg (by omega)]
  rfl

theorem flatten_chunk {α : Type} (m : Nat) :
    ∀ (L : List (List α)) (i : Nat), (∀ l ∈ L, l.length = m) → i < L.length →
      (L.flatten.drop (m * i)).take m = L.getD i [] := by
  intro L
  induction L with
  | nil => intro i _ hi; simp at hi
  | cons l ls ih =>
    intro i hL hi
    cases i with
    | zero =>
      rw [Nat.mul_zero, List.drop_zero, List.flatten_cons]
      exact List.take_left' (hL l (by simp))
    | succ i =>
      have hlen : l.length = m := hL l (by simp)
      rw [List.flatten_cons,
        show m * (i + 1) = l.length + m * i by rw [hlen]; ring,
        List.drop_append]
      exact ih i (fun x hx => hL x (by simp [hx])) (by simpa using hi)

theorem getD_map {α β : Type} (f : α → β) :
    ∀ (D : List α) (i : Nat), i < D.length → ∀ (x : β) (y : α),
      (D.map f).getD i x = f (D.getD i y) := by
  intro D
  induction D with
  | nil => intro i hi; simp at hi
  | cons a l ih =>
    intro i hi x y
    cases i with
    | zero => rfl
    | succ i =>
      show (l.map f).getD i x = f (l.getD i y)
      exact ih i (by simpa using hi) x y

theorem range_map_getD {α β : Type} (g : α → β) (y : α) :
    ∀ (D : List α), (List.range D.length).map (fun i => g (D.getD i y)) = D.map g := by
  intro D
  induction D with
  | nil => rfl
  | cons a l ih =>
    rw [List.length_cons, List.range_succ_eq_map, List.map_cons, List.map_map]
    congr 1


theorem flatten_map_singleton {α β : Type} (g : α → β) :
    ∀ L : List α, (L.map (fun d => [g d])).flatten = L.map g := by
  intro L
  induction L with
  | nil => rfl
  | cons a l ih => simp [ih]

theorem parseIntJS2_fixedBE_fin :
    ∀ d : Fin 32, parseIntJS 2 (fixedBE 2 digitChar36 5 d.val) = some (d.val : Int) := by
  decide

theorem jsIndexChars_crockford (d : Nat) (hd : d < 32) :
    jsIndexChars crockford (some (d : Int)) = [crockford.getD d ' '] := by
  have h32 : crockford.length = 32 := rfl
  have hcond : (0 : Int) ≤ (d : Int) ∧ (d : Int) < (crockford.length : Int) := by
    constructor
    · exact Int.natCast_nonneg d
    · rw [h32]
      exact_mod_cast hd
  rw [jsIndexChars, if_pos hcond, Int.toNat_natCast]

set_option maxHeartbeats 1600000 in
theorem decodeULID_fixed (N : Nat) (hN : N < 2 ^ 128) :
    decodeULID (String.mk (fixedBE 60 alphaChar 22 N))
      = .ok (String.mk ((fixedBE 32 (fun x => x) 26 N).map
          (fun d => crockford.getD d ' '))) := by
  have hN' : N < 256 ^ 16 := by
    calc N < 2 ^ 128 := hN
    _ = 256 ^ 16 := by norm_num
  have hN60 : N < 60 ^ 22 := by
    calc N < 2 ^ 128 := hN
    _ < 60 ^ 22 := by norm_num
  have hlen22 : (String.mk (fixedBE 60 alphaChar 22 N)).length = 22 :=
    fixedBE_length 60 alphaChar 22 N
  rw [decodeULID_eq _ hlen22, decode_fixedBE 22 N hN60]
  simp only [exceptBind_ok]
  rw [bigIntToBytes_fixed N 16 (by omega) hN']
  simp only [exceptBind_ok]
  have hmap : (fixedBE 256 (fun x => x) 16 N).map byteToBits
      = (fixedBE 256 (fun x => x) 16 N).map (fun b => fixedBE 2 digitChar36 8 b) :=
    List.map_congr_left
      (fun b hb => byteToBits_eq b (fixedBE_mem_lt 256 (by omega) 16 N b hb))
  rw [hmap, show (256 : Nat) = 2 ^ 8 from rfl,
    flatten_map_fixedBE 2 8 digitChar36 16 N, show 8 * 16 = 128 from rfl]
  have hbl : (fixedBE 2 digitChar36 128 N).length = 128 := fixedBE_length _ _ _ _
  rw [hbl, show (130 - 128 : Nat) = 2 from rfl]
  -- the two leading padding bits are the two top (zero) bits of the
  -- 130-bit rendering
  have hpad : List.replicate 2 '0' ++ fixedBE 2 digitChar36 128 N
      = fixedBE 2 digitChar36 130 N := by
    rw [show (130 : Nat) = 2 + 128 from rfl, fixedBE_compose 2 digitChar36 2 128 N,
      Nat.div_eq_of_lt hN, Nat.mod_eq_of_lt hN, fixedBE_zero]
    rfl
  rw [hpad]
  -- regroup the 130 bits as 26 five-bit chunks
  have hgroup : fixedBE 2 digitChar36 130 N
      = ((fixedBE 32 (fun x => x) 26 N).map (fun d => fixedBE 2 digitChar36 5 d)).flatten := by
    rw [show (32 : Nat) = 2 ^ 5 from rfl, flatten_map_fixedBE 2 5 digitChar36 26 N]
  have hdig : ∀ d ∈ fixedBE 32 (fun x => x) 26 N, d < 32 :=
    fixedBE_mem_lt 32 (by omega) 26 N
  have hchunk : ∀ i, i < 26 →
      ((fixedBE 2 digitChar36 130 N).drop (5 * i)).take 5
        = fixedBE 2 digitChar36 5 ((fixedBE 32 (fun x => x) 26 N).getD i 0) := by
    intro i hi
    rw [hgroup, flatten_chunk 5 _ i
      (by
        intro l hl
        obtain ⟨d, hd, rfl⟩ := List.mem_map.mp hl
        exact fixedBE_length 2 digitChar36 5 d)
      (by
        rw [List.length_map, fixedBE_length]
        exact hi)]
    exact getD_map _ _ i (by rw [fixedBE_length]; exact hi) _ 0
  have hout : (List.range 26).map (fun i =>
      jsIndexChars crockford (parseIntJS 2
        (((fixedBE 2 digitChar36 130 N).drop (5 * i)).take 5)))
      = (List.range 26).map (fun i =>
        [crockford.getD ((fixedBE 32 (fun x => x) 26 N).getD i 0) ' ']) := by
    apply List.map_congr_left
    intro i hi
    have hi26 : i < 26 := by simpa using List.mem_range.mp hi
    rw [hchunk i hi26]
    have hdlt : (fixedBE 32 (fun x => x) 26 N).getD i 0 < 32 := by
      apply hdig
      have : i < (fixedBE 32 (fun x => x) 26 N).length := by
        rw [fixedBE_length]; exact hi26
      rw [List.getD_eq_getElem?_getD, List.getElem?_eq_getElem this]
      exact List.getElem_mem _
    rw [parseIntJS2_fixedBE_fin ⟨(fixedBE 32 (fun x => x) 26 N).getD i 0, hdlt⟩,
      jsIndexChars_crockford _ hdlt]
  rw [hout]
  have hrange := range_map_getD (fun d => [crockford.getD d ' ']) 0
    (fixedBE 32 (fun x => x) 26 N)
  rw [fixedBE_length] at hrange
  rw [hrange, flatten_map_singleton (fun d => crockford.getD d ' ')]

set_option maxHeartbeats 1000000 in
/-- C5: for every valid 26-character Crockford-base32 ULID string (case
insensitive) whose 130-bit parsed value fits in 128 bits,
`decodeULID (encodeULID u)` returns `u` normalised to uppercase: the 128-bit
value is re-expanded to 16 bytes, left-padded with 2 zero bits to 130 bits,
and re-split into 26 five-bit Crockford symbols. -/
theorem ulid_roundtrip (u : String) (hlen : u.length = 26)
    (hch : u.data.all (fun c => crockford.contains (upperAscii c)) = true)
    (hN : ulidNat u < 2 ^ 128) :
    ∃ s, encodeULID u = .ok s ∧
      decodeULID s = .ok (String.mk (u.data.map upperAscii)) := by
  refine ⟨_, encodeULID_ok u hlen hch hN, ?_⟩
  rw [decodeULID_fixed _ hN]
  have hcontains : ∀ c ∈ u.data, crockford.contains (upperAscii c) = true :=
    fun c hc => List.all_eq_true.mp hch c hc
  have heq : (fixedBE 32 (fun x => x) 26 (ulidNat u)).map (fun d => crockford.getD d ' ')
      = u.data.map upperAscii := by
    have hDlt : ∀ d ∈ u.data.map (fun c => crockVal (upperAscii c)), d < 32 := by
      intro d hd
      obtain ⟨c, hc, rfl⟩ := List.mem_map.mp hd
      have hs : (indexIn crockford (upperAscii c)).isSome = true := by
        rw [indexIn_isSome_iff_contains]
        exact hcontains c hc
      obtain ⟨v, hv⟩ := Option.isSome_iff_exists.mp hs
      have h32 : crockford.length = 32 := rfl
      have hvl := indexIn_lt_length _ _ _ hv
      simp only [crockVal, hv, Option.getD_some]
      omega
    have hval : ulidNat u
        = (u.data.map (fun c => crockVal (upperAscii c))).foldl
            (fun v d => v * 32 + d) 0 := by
      rw [List.foldl_map]
      rfl
    have hlen26 : (u.data.map (fun c => crockVal (upperAscii c))).length = 26 := by
      rw [List.length_map]
      exact hlen
    have hfixD : fixedBE 32 (fun x => x) 26 (ulidNat u)
        = (u.data.map (fun c => crockVal (upperAscii c))).map (fun x => x) := by
      rw [hval, ← hlen26]
      exact fixedBE_foldl 32 (fun x => x) _ hDlt
    rw [hfixD, List.map_map, List.map_map]
    apply List.map_congr_left
    intro c hc
    obtain ⟨v, hv⟩ := Option.isSome_iff_exists.mp (by
      rw [indexIn_isSome_iff_contains]
      exact hcontains c hc)
    simp only [Function.comp_apply, crockVal, hv, Option.getD_some]
    exact indexIn_getD _ _ _ _ hv
  rw [heq]

set_option maxHeartbeats 1000000 in
/-- C5 witness: the test suite's ULID round-trips (it is already
uppercase). -/
theorem ulid_roundtrip_check :
    ("01H8J5N3Z9V8XK8E2X5PWSQ4M0" : String).length = 26 ∧
    ("01H8J5N3Z9V8XK8E2X5PWSQ4M0" : String).data.all
      (fun c => crockford.contains (upperAscii c)) = true ∧
    ulidNat "01H8J5N3Z9V8XK8E2X5PWSQ4M0" < 2 ^ 128 ∧
    ∃ s, encodeULID "01H8J5N3Z9V8XK8E2X5PWSQ4M0" = .ok s ∧
      decodeULID s = .ok (String.mk
        (("01H8J5N3Z9V8XK8E2X5PWSQ4M0" : String).data.map upperAscii)) :=
  ⟨by decide, by decide, by decide,
    ulid_roundtrip "01H8J5N3Z9V8XK8E2X5PWSQ4M0" (by decide) (by decide) (by decide)⟩

end Base60
